import Mathlib

/-!
Shallow embedding of scripts/build.py, a pipeline that cross-compiles
CPython for Android and packages the result into Magisk modules.
Filesystem contents are modelled as explicit data (byte lists, line lists,
directory-entry lists); external effects (download, extraction, child
processes) are modelled as explicit effect values or command lists.
-/

namespace Py2Droid

/-! ## String and byte utilities -/

/-- The whitespace characters stripped by Python str.strip(). -/
def pyWhitespace (c : Char) : Bool :=
  c = ' ' || c = '\t' || c = '\n' || c = '\r' || c = '\x0b' || c = '\x0c'

/-- Python str.strip() on a character list. -/
def pyStripList (l : List Char) : List Char :=
  ((l.dropWhile pyWhitespace).reverse.dropWhile pyWhitespace).reverse

/-- Python str.strip() on a string. -/
def pyStrip (s : String) : String := ⟨pyStripList s.data⟩

/-- Does the list start with the given pattern (Python str.startswith)? -/
def listStarts : List Char → List Char → Bool
  | [], _ => true
  | _ :: _, [] => false
  | p :: ps, c :: cs => p = c && listStarts ps cs

/-- Substring containment (Python `pat in s`). -/
def listContains (pat : List Char) : List Char → Bool
  | [] => listStarts pat []
  | c :: cs => listStarts pat (c :: cs) || listContains pat cs

/-- Python text-file iteration: split a file body into lines, each line
keeping its terminating newline; a final chunk without a newline is kept
when nonempty. -/
def pyFileLinesAux : List Char → List Char → List (List Char)
  | [], acc => if acc.isEmpty then [] else [acc.reverse]
  | c :: rest, acc =>
    if c = '\n' then (acc.reverse ++ ['\n']) :: pyFileLinesAux rest []
    else pyFileLinesAux rest (c :: acc)

/-- Lines of a file body, Python file-iteration style. -/
def pyFileLines (content : List Char) : List (List Char) :=
  pyFileLinesAux content []

/-! ## ModuleBuilder: arch mapping and module.prop rewriting -/

/-- The host-triple to Magisk ARCH mapping built in ModuleBuilder.__init__
(build.py lines 98-104), as an association list in source order. -/
def arch_mapping : List (String × String) :=
  [("aarch64-linux-android", "arm64"),
   ("armv7a-linux-androideabi", "arm"),
   ("arm-linux-androideabi", "arm"),
   ("x86_64-linux-android", "x64"),
   ("i686-linux-android", "x86")]

/-- self.arch_mapping.get(host, "unknown") (build.py line 152). -/
def archOf (host : String) : String :=
  (arch_mapping.lookup host).getD "unknown"

/-- Python str.upper(), character by character (ASCII case mapping). -/
def pyUpper (s : String) : String := ⟨s.data.map Char.toUpper⟩

/-- The replacement description line written by _process_module_prop. -/
def descriptionLine (ver arch : String) : String :=
  "description=CPython " ++ ver ++ " for " ++ pyUpper arch

/-- One loop iteration of _process_module_prop (build.py lines 124-130):
a line starting with "description" is replaced, any other line is
stripped. -/
def procLine (ver arch : String) (line : List Char) : List Char :=
  if listStarts "description".data line then (descriptionLine ver arch).data
  else pyStripList line

/-- ModuleBuilder._process_module_prop (build.py lines 120-132) on a file
body: process each line of the file, join with a single newline. -/
def processModuleProp (content : String) (ver arch : String) : String :=
  String.intercalate "\n"
    ((pyFileLines content.data).map (fun l => (⟨procLine ver arch l⟩ : String)))

/-! ## Version resolution (get_cpython, build.py lines 381-386)

re.findall searches left to right; the pattern \d+\.\d+\.\d+ has disjoint
character classes on either side of each dot, so greedy matching is
deterministic: at a given start position each \d+ consumes the maximal
digit run. -/

/-- Greedy match of \d+\.\d+\.\d+ at the start of the list, returning the
matched characters. -/
def matchVer (l : List Char) : Option (List Char) :=
  let d1 := l.takeWhile Char.isDigit
  if d1.isEmpty then none else
  match l.drop d1.length with
  | [] => none
  | c1 :: r2 =>
    if c1 = '.' then
      let d2 := r2.takeWhile Char.isDigit
      if d2.isEmpty then none else
      match r2.drop d2.length with
      | [] => none
      | c2 :: r3 =>
        if c2 = '.' then
          let d3 := r3.takeWhile Char.isDigit
          if d3.isEmpty then none else some (d1 ++ '.' :: (d2 ++ '.' :: d3))
        else none
    else none

/-- Left-to-right scan: the first (leftmost) match of \d+\.\d+\.\d+. -/
def findVer : List Char → Option (List Char)
  | [] => none
  | c :: cs =>
    match matchVer (c :: cs) with
    | some v => some v
    | none => findVer cs

/-- Version resolved from a source-archive filename: the first match of
\d+\.\d+\.\d+, or "unknown" (build.py lines 383-386). -/
def pyVersionOf (filename : String) : String :=
  match findVer filename.data with
  | some v => ⟨v⟩
  | none => "unknown"

/-- Split a character list on a separator character. -/
def splitChar (sep : Char) : List Char → List (List Char)
  | [] => [[]]
  | c :: rest =>
    match splitChar sep rest with
    | [] => [[]]
    | g :: gs => if c = sep then [] :: g :: gs else (c :: g) :: gs

/-- Python Path(url).name: the last nonempty path component. -/
def pathName (url : String) : String :=
  ⟨((((splitChar '/' url.data).filter (fun p => p ≠ [])).getLast?).getD [])⟩

/-- Specification-side predicate: the list matches \d+\.\d+\.\d+ exactly
(three nonempty all-digit runs separated by single dots). -/
def VerStr (v : List Char) : Prop :=
  ∃ a b c : List Char,
    v = a ++ '.' :: (b ++ '.' :: c) ∧
    a ≠ [] ∧ b ≠ [] ∧ c ≠ [] ∧
    (∀ x ∈ a, x.isDigit = true) ∧ (∀ x ∈ b, x.isDigit = true) ∧
    (∀ x ∈ c, x.isDigit = true)

/-! ## Binary detection and shebang rewriting -/

/-- Membership in the textchars table of is_binary (build.py line 299):
{7, 8, 9, 10, 12, 13, 27} together with the range 0x20-0xFF minus 0x7F. -/
def textchar (c : Nat) : Bool :=
  c = 7 || c = 8 || c = 9 || c = 10 || c = 12 || c = 13 || c = 27 ||
  (0x20 ≤ c && c < 0x100 && c ≠ 0x7F)

/-- is_binary (build.py lines 289-300): bytes.translate deletes every
textchars byte, and the result is truthy exactly when some byte
remains. -/
def is_binary (b : List Nat) : Bool := b.any (fun c => !textchar c)

/-- The allowed byte set as the claim states it: tab, newline, form-feed,
carriage-return, escape, and 0x20-0xFF minus 0x7F. -/
def ClaimAllowedByte (c : Nat) : Prop :=
  c ∈ ([9, 10, 12, 13, 27] : List Nat) ∨ (0x20 ≤ c ∧ c < 0x100 ∧ c ≠ 0x7F)

/-- The allowed byte set the code actually uses: the claim's set plus
bell (7) and backspace (8). -/
def AllowedByte (c : Nat) : Prop :=
  c ∈ ([7, 8, 9, 10, 12, 13, 27] : List Nat) ∨ (0x20 ≤ c ∧ c < 0x100 ∧ c ≠ 0x7F)

instance (c : Nat) : Decidable (ClaimAllowedByte c) := by
  unfold ClaimAllowedByte
  infer_instance

instance (c : Nat) : Decidable (AllowedByte c) := by
  unfold AllowedByte
  infer_instance

/-- bytes.decode(): modelled on the ASCII plane. A file whose bytes are
all below 0x80 decodes to the corresponding characters; multibyte UTF-8
sequences are outside this model and are treated as a decode failure. -/
def asciiDecode (b : List Nat) : Option (List Char) :=
  if b.all (fun c => c < 0x80) then some (b.map Char.ofNat) else none

/-- str.encode() for the ASCII-plane model. -/
def asciiEncode (s : List Char) : List Nat := s.map Char.toNat

/-- pattern.sub(replacement, content, 1): replace the leftmost occurrence
of the pattern, where a pattern is modelled as a function giving the
length of its (deterministic greedy) match at a position, if any. -/
def subFirst (m : List Char → Option Nat) (repl : List Char) :
    List Char → List Char
  | [] => match m [] with
    | some _ => repl
    | none => []
  | c :: cs => match m (c :: cs) with
    | some n => repl ++ (c :: cs).drop n
    | none => c :: subFirst m repl cs

/-- replace_shebang (build.py lines 550-579) on a file's bytes: returns
the flag the function returns and the file content afterwards. A binary
file (judged from the first 1024 bytes), an undecodable file, and a file
whose content does not start with a pattern match are left unchanged
with a false flag; otherwise the first occurrence of the pattern is
substituted and the file rewritten. -/
def replace_shebang (m : List Char → Option Nat) (repl : List Char)
    (file : List Nat) : Bool × List Nat :=
  if is_binary (file.take 1024) then (false, file)
  else
    match asciiDecode file with
    | none => (false, file)
    | some content =>
      match m content with
      | none => (false, file)
      | some _ => (true, asciiEncode (subFirst m repl content))

/-- Modelled from the spec: the configured "python" shebang regex is not
in src/ (it lives in build.toml); per the spec it is a pattern matched
against the start of the file that covers the whole python shebang line,
so it is modelled as matching a first line that starts with "#!" and
mentions "python", consuming that entire line. -/
def pythonShebangMatch (s : List Char) : Option Nat :=
  let line := s.takeWhile (fun c => c ≠ '\n')
  if listStarts "#!".data line && listContains "python".data line then
    some line.length
  else none

/-- One file's pass of replace_shebangs (build.py lines 606-610): try the
python pattern, then, only when it did not replace, the shell pattern
(the shell regex is likewise configuration, kept abstract here). -/
def processBinFile (shellM : List Char → Option Nat) (file : List Nat) :
    List Nat :=
  let r1 := replace_shebang pythonShebangMatch "#!/system/bin/python3".data file
  if r1.1 then r1.2
  else (replace_shebang shellM "#!/system/bin/sh".data file).2

/-- First line of a byte file (up to the first newline byte). -/
def firstLineBytes (b : List Nat) : List Nat :=
  b.takeWhile (fun c => c ≠ 10)

/-! ## Source acquisition (get_cpython, build.py lines 381-401) -/

/-- An immediate child of the build directory, in iteration order. -/
structure DirEntry where
  name : String
  isDir : Bool
deriving DecidableEq

/-- External effects get_cpython can perform. -/
inductive FetchEffect
  | download (url : String)
  | extract
deriving DecidableEq

/-- Outcome of get_cpython. -/
inductive SourceResult
  | cached (dir : String) (version : String)
  | fetched (version : String)
deriving DecidableEq

/-- The cache scan of get_cpython (build.py lines 389-392): the first
build-directory entry, in iteration order, that is a directory and whose
name contains the version string. -/
def findCachedDir (version : String) (entries : List DirEntry) :
    Option DirEntry :=
  entries.find? (fun e => e.isDir && listContains version.data e.name.data)

/-- get_cpython (build.py lines 367-401) over a modelled build directory:
returns the outcome and the list of external effects performed. -/
def get_cpython (sources_url : String) (buildEntries : List DirEntry) :
    SourceResult × List FetchEffect :=
  let version := pyVersionOf (pathName sources_url)
  match findCachedDir version buildEntries with
  | some e => (.cached e.name version, [])
  | none => (.fetched version, [.download sources_url, .extract])

/-! ## Configuration loading (load_config, build.py lines 336-364) -/

/-- A TOML value, restricted to the shapes the two config records use. -/
inductive TomlVal
  | str (s : String)
  | boolean (b : Bool)
  | strList (l : List String)
  | strMap (m : List (String × String))
deriving DecidableEq

/-- A TOML table: association list with distinct keys (the parser rejects
duplicate keys). -/
abbrev TomlTable := List (String × TomlVal)

/-- A parsed TOML document: its top-level tables. -/
abbrev TomlDoc := List (String × TomlTable)

/-- PythonConfig (build.py lines 39-49). The dataclass's type hints are
not enforced at runtime, so each field holds whatever TOML value the
config table supplied under that key. -/
structure PythonConfig where
  sources_url : TomlVal
  apply_patches : TomlVal
  hosts : TomlVal
  configure_args : TomlVal
  configure_env : TomlVal
  package : TomlVal
deriving DecidableEq

/-- ModuleConfig (build.py lines 52-63), with the same unvalidated
fields. -/
structure ModuleConfig where
  include_files : TomlVal
  debloat : TomlVal
  debloat_patterns : TomlVal
  replace_shebangs : TomlVal
  shebang_mapping : TomlVal
  strip : TomlVal
  strip_args : TomlVal
deriving DecidableEq

def pythonConfigFields : List String :=
  ["sources_url", "apply_patches", "hosts", "configure_args",
   "configure_env", "package"]

def moduleConfigFields : List String :=
  ["include_files", "debloat", "debloat_patterns", "replace_shebangs",
   "shebang_mapping", "strip", "strip_args"]

/-- PythonConfig(**table): keyword construction of the frozen dataclass
checks key names only - it fails (TypeError) when the table has a key
that is no field or lacks one of the fields, and otherwise takes every
value as-is, with no runtime type checking and no defaults. -/
def mkPythonConfig (t : TomlTable) : Option PythonConfig :=
  if t.all (fun kv => pythonConfigFields.contains kv.1) then do
    let u ← t.lookup "sources_url"
    let ap ← t.lookup "apply_patches"
    let hs ← t.lookup "hosts"
    let ca ← t.lookup "configure_args"
    let ce ← t.lookup "configure_env"
    let pk ← t.lookup "package"
    some ⟨u, ap, hs, ca, ce, pk⟩
  else none

/-- ModuleConfig(**table), same construction discipline. -/
def mkModuleConfig (t : TomlTable) : Option ModuleConfig :=
  if t.all (fun kv => moduleConfigFields.contains kv.1) then do
    let inc ← t.lookup "include_files"
    let db ← t.lookup "debloat"
    let dp ← t.lookup "debloat_patterns"
    let rs ← t.lookup "replace_shebangs"
    let sm ← t.lookup "shebang_mapping"
    let st ← t.lookup "strip"
    let sa ← t.lookup "strip_args"
    some ⟨inc, db, dp, rs, sm, st, sa⟩
  else none

/-- How load_config can fail: a ValueError (the configuration error the
code raises itself) or the TypeError that escapes from keyword
construction of a dataclass. -/
inductive ConfigError
  | valueError (msg : String)
  | typeError
deriving DecidableEq

/-- load_config (build.py lines 336-364). Its input is the result of
tomllib.load: either a parse error message or a parsed document. -/
def load_config (parsed : Except String TomlDoc) :
    Except ConfigError (PythonConfig × ModuleConfig) :=
  match parsed with
  | .error e =>
    .error (.valueError ("Failed to parse 'build.toml': " ++ e))
  | .ok config =>
    if (config.lookup "python").isNone || (config.lookup "module").isNone then
      .error (.valueError
        "Configuration file 'build.toml' must contain 'python' and 'module' sections")
    else
      match (config.lookup "python").getD [], (config.lookup "module").getD [] with
      | pt, mt =>
        match mkPythonConfig pt, mkModuleConfig mt with
        | some pc, some mc => .ok (pc, mc)
        | _, _ => .error .typeError

/-! ## Build driver (build_cpython, build.py lines 404-457) -/

/-- Commands and effects the build driver issues, in order. -/
inductive Cmd
  | configureBuild
  | makeBuild
  | configureHost (h : String)
  | makeHost (h : String)
  | packageHost (h : String)
  | moveDist (h : String)
deriving DecidableEq

/-- The per-host body of build_cpython's loop (build.py lines 427-457):
an existing cross-build/<host> directory skips the host entirely. -/
def hostCmds (package : Bool) (hostExists : String → Bool) (h : String) :
    List Cmd :=
  if hostExists h then []
  else [Cmd.configureHost h, Cmd.makeHost h] ++
    (if package then [Cmd.packageHost h, Cmd.moveDist h] else [])

/-- build_cpython (build.py lines 404-457) as the ordered command list it
issues, given which output directories already exist. -/
def build_cpython (hosts : List String) (package : Bool)
    (buildExists : Bool) (hostExists : String → Bool) : List Cmd :=
  (if buildExists then [] else [Cmd.configureBuild, Cmd.makeBuild]) ++
    (hosts.map (hostCmds package hostExists)).flatten

/-! ## Property files (getprops, build.py lines 187-213) -/

/-- line.split(sep, 1) for a one-character separator occurring in the
line: the part before the first occurrence and the part after it. -/
def splitOnceChar (sep : Char) : List Char → List Char × List Char
  | [] => ([], [])
  | c :: rest =>
    if c = sep then ([], rest)
    else
      let p := splitOnceChar sep rest
      (c :: p.1, p.2)

/-- Does a line match one of the requested keys: it contains the
separator and its stripped key field is among the keys. -/
def lineMatches (keys : List (List Char)) (line : List Char) : Bool :=
  line.contains '=' && keys.contains (pyStripList (splitOnceChar '=' line).1)

/-- The stripped value field of a line. -/
def lineValue (line : List Char) : List Char :=
  pyStripList (splitOnceChar '=' line).2

/-- getprops (build.py lines 187-213) over the file's lines with the
default "=" separator: for each line containing the separator whose
stripped key field is among the requested keys, append the stripped
value field. (The split(sep, 1) of a line containing sep always yields
two fields, so the length-two guard in the source never fires.) -/
def getprops (lines : List (List Char)) (keys : List (List Char)) :
    List (List Char) :=
  lines.filterMap (fun line =>
    if line.contains '=' then
      let fields := splitOnceChar '=' line
      if keys.contains (pyStripList fields.1) then
        some (pyStripList fields.2)
      else none
    else none)

/-- The tuple unpacking in ModuleBuilder.__init__ (build.py lines 90-94):
self.module_name, self.module_ver = getprops(file, "name", "version").
Unpacking fails with a ValueError unless the tuple has exactly two
elements. -/
def initModuleProps (lines : List (List Char)) :
    Except Unit (List Char × List Char) :=
  match getprops lines ["name".data, "version".data] with
  | [n, v] => .ok (n, v)
  | _ => .error ()

/-! ## Module packaging (ModuleBuilder.build, build.py lines 146-168) -/

/-- The output archive name (build.py line 155). -/
def moduleZipName (name ver arch : String) : String :=
  name ++ "-" ++ ver ++ "-" ++ arch ++ ".zip"

/-- ModuleBuilder.build over a modelled output directory (the list of
file names present, in creation order): per host, ZipFile(path, "w")
creates the archive or truncates an existing one of the same name, so a
name is appended only when not already present. -/
def moduleBuilderRun (initial : List String) (hosts : List String)
    (name ver : String) : List String :=
  hosts.foldl (fun fs h =>
    let n := moduleZipName name ver (archOf h)
    if fs.contains n then fs else fs ++ [n]) initial

/-! ## General lemmas about the string utilities -/

theorem listStarts_self (l : List Char) : listStarts l l = true := by
  induction l with
  | nil => rfl
  | cons c cs ih => simp [listStarts, ih]

theorem listContains_append_self (p x : List Char) :
    listContains p (x ++ p) = true := by
  induction x with
  | nil =>
    cases p with
    | nil => rfl
    | cons c cs => simp [listContains, listStarts_self]
  | cons y ys ih => simp [listContains, ih]

/-! ## C9: the arch mapping -/

/-- C9: the host-triple to architecture-code mapping has exactly the five
listed entries, and every other host triple maps to "unknown". -/
theorem c9_arch_mapping :
    arch_mapping.length = 5 ∧
    archOf "aarch64-linux-android" = "arm64" ∧
    archOf "armv7a-linux-androideabi" = "arm" ∧
    archOf "arm-linux-androideabi" = "arm" ∧
    archOf "x86_64-linux-android" = "x64" ∧
    archOf "i686-linux-android" = "x86" ∧
    ∀ h : String, h ∉ arch_mapping.map Prod.fst → archOf h = "unknown" := by
  refine ⟨rfl, by decide, by decide, by decide, by decide, by decide, ?_⟩
  intro h hn
  simp [arch_mapping, List.map] at hn
  obtain ⟨h1, h2, h3, h4, h5⟩ := hn
  have e1 : (h == "aarch64-linux-android") = false := beq_eq_false_iff_ne.mpr h1
  have e2 : (h == "armv7a-linux-androideabi") = false := beq_eq_false_iff_ne.mpr h2
  have e3 : (h == "arm-linux-androideabi") = false := beq_eq_false_iff_ne.mpr h3
  have e4 : (h == "x86_64-linux-android") = false := beq_eq_false_iff_ne.mpr h4
  have e5 : (h == "i686-linux-android") = false := beq_eq_false_iff_ne.mpr h5
  simp [archOf, arch_mapping, List.lookup, e1, e2, e3, e4, e5]

/-- Witness for C9 at a host triple outside the mapping. -/
theorem c9_arch_mapping_witness : archOf "riscv64-linux-android" = "unknown" :=
  c9_arch_mapping.2.2.2.2.2.2 "riscv64-linux-android" (by decide)

/-! ## C3: binary classification -/

/-- C3 counterexample: byte 7 (bell) is outside the allowed set stated by
the claim, so the claim classifies the file [7] as binary, yet is_binary
does not (its textchars table also holds 7 and 8). -/
theorem c3_binary_check_counterexample :
    is_binary [7] = false ∧ ¬ ClaimAllowedByte 7 := by
  exact ⟨rfl, by decide⟩

theorem textchar_iff (c : Nat) : textchar c = true ↔ AllowedByte c := by
  simp only [textchar, AllowedByte, List.mem_cons, List.not_mem_nil, or_false,
    Bool.or_eq_true, decide_eq_true_eq, Bool.and_eq_true, ne_eq,
    Nat.decLe, bne_iff_ne]
  omega

theorem textchar_false_iff (c : Nat) : textchar c = false ↔ ¬ AllowedByte c := by
  rw [← Bool.not_eq_true, textchar_iff]

/-- C3 (amended): the binary check judges only the first 1024 bytes of the
file, classifying them binary exactly when some byte falls outside
{bell, backspace, tab, newline, form-feed, carriage-return, escape} and
outside 0x20-0xFF minus 0x7F; every file so classified passes through
replace_shebang unchanged. -/
theorem c3_binary_check (m : List Char → Option Nat) (repl : List Char)
    (file : List Nat) :
    (is_binary (file.take 1024) = true ↔
      ∃ c ∈ file.take 1024, ¬ AllowedByte c) ∧
    (is_binary (file.take 1024) = true →
      replace_shebang m repl file = (false, file)) := by
  constructor
  · simp [is_binary, List.any_eq_true, textchar_false_iff]
  · intro hb
    simp [replace_shebang, hb]

/-- Witness for C3 at a file holding a null byte. -/
theorem c3_binary_check_witness :
    replace_shebang (fun _ => none) [] [0] = (false, [0]) :=
  (c3_binary_check (fun _ => none) [] [0]).2 (by decide)

/-! ## C2: archives produced by module packaging -/

/-- C2 counterexample: with the two configured hosts
armv7a-linux-androideabi and arm-linux-androideabi, both of which derive
architecture code "arm", packaging leaves a single zip in an initially
empty output directory, not one per configured host. -/
theorem c2_archives_counterexample :
    (moduleBuilderRun []
      ["armv7a-linux-androideabi", "arm-linux-androideabi"]
      "module" "1.0").length = 1 ∧
    (["armv7a-linux-androideabi", "arm-linux-androideabi"] : List String).length
      = 2 := by
  exact ⟨by decide, rfl⟩

theorem moduleZipName_inj (name ver a1 a2 : String)
    (h : moduleZipName name ver a1 = moduleZipName name ver a2) : a1 = a2 := by
  have hd := congrArg String.data h
  simp only [moduleZipName, String.data_append, List.append_assoc] at hd
  have h1 := List.append_cancel_left hd
  have h2 := List.append_cancel_left h1
  have h3 := List.append_cancel_left h2
  have h4 := List.append_cancel_left h3
  have h5 := List.append_cancel_right h4
  have := congrArg String.mk h5
  simpa using this

theorem moduleBuilderRun_mem (name ver : String) (hosts : List String) :
    ∀ (init : List String) (f : String),
      f ∈ moduleBuilderRun init hosts name ver ↔
        f ∈ init ∨ ∃ h ∈ hosts, f = moduleZipName name ver (archOf h) := by
  induction hosts with
  | nil => intro init f; simp [moduleBuilderRun]
  | cons h t ih =>
    intro init f
    simp only [moduleBuilderRun, List.foldl_cons] at *
    rw [ih]
    by_cases hc : init.contains (moduleZipName name ver (archOf h))
    · have hmem : moduleZipName name ver (archOf h) ∈ init :=
        List.elem_iff.mp hc
      simp only [hc, if_true]
      constructor
      · rintro (hf | ⟨h', hh', rfl⟩)
        · exact Or.inl hf
        · exact Or.inr ⟨h', List.mem_cons_of_mem _ hh', rfl⟩
      · rintro (hf | ⟨h', hh', rfl⟩)
        · exact Or.inl hf
        · rcases List.mem_cons.mp hh' with rfl | hh'
          · exact Or.inl hmem
          · exact Or.inr ⟨h', hh', rfl⟩
    · simp only [hc, if_false, Bool.false_eq_true, List.mem_append,
        List.mem_singleton]
      constructor
      · rintro ((hf | rfl) | ⟨h', hh', rfl⟩)
        · exact Or.inl hf
        · exact Or.inr ⟨h, List.mem_cons_self h t, rfl⟩
        · exact Or.inr ⟨h', List.mem_cons_of_mem _ hh', rfl⟩
      · rintro (hf | ⟨h', hh', rfl⟩)
        · exact Or.inl (Or.inl hf)
        · rcases List.mem_cons.mp hh' with rfl | hh'
          · exact Or.inl (Or.inr rfl)
          · exact Or.inr ⟨h', hh', rfl⟩

theorem moduleBuilderRun_nodup (name ver : String) (hosts : List String) :
    ∀ init : List String, init.Nodup →
      (moduleBuilderRun init hosts name ver).Nodup := by
  induction hosts with
  | nil => intro init hi; simpa [moduleBuilderRun] using hi
  | cons h t ih =>
    intro init hi
    simp only [moduleBuilderRun, List.foldl_cons] at *
    by_cases hc : init.contains (moduleZipName name ver (archOf h))
    · simp only [hc, if_true]
      exact ih init hi
    · simp only [hc, if_false, Bool.false_eq_true]
      refine ih _ (List.nodup_append.mpr ⟨hi, List.nodup_singleton _, ?_⟩)
      intro x hx hx1
      rw [List.mem_singleton] at hx1
      subst hx1
      exact hc (List.elem_iff.mpr hx)

theorem moduleBuilderRun_length (name ver : String) (hosts : List String)
    (hn : (hosts.map archOf).Nodup) :
    ∀ init : List String,
      (∀ h ∈ hosts, moduleZipName name ver (archOf h) ∉ init) →
      (moduleBuilderRun init hosts name ver).length =
        init.length + hosts.length := by
  induction hosts with
  | nil => intro init _; simp [moduleBuilderRun]
  | cons h t ih =>
    intro init hdisj
    have hzn : moduleZipName name ver (archOf h) ∉ init :=
      hdisj h (List.mem_cons_self h t)
    have hc : init.contains (moduleZipName name ver (archOf h)) = false := by
      rw [← Bool.not_eq_true]
      intro hcc
      exact hzn (List.elem_iff.mp hcc)
    rw [List.map_cons, List.nodup_cons] at hn
    simp only [moduleBuilderRun, List.foldl_cons, hc, if_false,
      Bool.false_eq_true] at *
    have hstep : ∀ h' ∈ t,
        moduleZipName name ver (archOf h') ∉
          init ++ [moduleZipName name ver (archOf h)] := by
      intro h' hh'
      rw [List.mem_append, List.mem_singleton]
      rintro (hmem | heq)
      · exact hdisj h' (List.mem_cons_of_mem _ hh') hmem
      · exact hn.1 (moduleZipName_inj name ver _ _ heq ▸ List.mem_map_of_mem archOf hh')
    have := ih hn.2 (init ++ [moduleZipName name ver (archOf h)]) hstep
    rw [this, List.length_append, List.length_singleton, List.length_cons]
    omega

/-- C2 (amended): over an initially empty output directory, packaging
leaves exactly the archive names derived from the configured hosts, with
no duplicates; this is one archive per configured host exactly when the
hosts' derived architecture codes are pairwise distinct (hosts sharing a
code share a single archive, the later host overwriting the earlier). -/
theorem c2_archives_per_host (name ver : String) (hosts : List String) :
    (∀ f, f ∈ moduleBuilderRun [] hosts name ver ↔
      ∃ h ∈ hosts, f = moduleZipName name ver (archOf h)) ∧
    (moduleBuilderRun [] hosts name ver).Nodup ∧
    ((hosts.map archOf).Nodup →
      (moduleBuilderRun [] hosts name ver).length = hosts.length) := by
  refine ⟨fun f => ?_, moduleBuilderRun_nodup name ver hosts [] (by simp),
    fun hn => ?_⟩
  · simpa using moduleBuilderRun_mem name ver hosts [] f
  · simpa using moduleBuilderRun_length name ver hosts hn [] (by simp)

/-- Witness for C2 at two hosts with distinct architecture codes. -/
theorem c2_archives_per_host_witness :
    (moduleBuilderRun [] ["aarch64-linux-android", "x86_64-linux-android"]
      "module" "1.0").length = 2 :=
  (c2_archives_per_host "module" "1.0"
    ["aarch64-linux-android", "x86_64-linux-android"]).2.2 (by decide)

/-! ## C1: module descriptor rewriting -/

theorem pyFileLinesAux_line (m rest acc : List Char) (hm : '\n' ∉ m) :
    pyFileLinesAux (m ++ '\n' :: rest) acc =
      (acc.reverse ++ (m ++ ['\n'])) :: pyFileLinesAux rest [] := by
  induction m generalizing acc with
  | nil => simp [pyFileLinesAux]
  | cons c cs ih =>
    have hc : c ≠ '\n' := fun h => hm (h ▸ List.mem_cons_self c cs)
    have hm' : '\n' ∉ cs := fun h => hm (List.mem_cons_of_mem c h)
    simp only [List.cons_append, pyFileLinesAux, if_neg hc]
    simpa using ih (c :: acc) hm'

theorem pyFileLines_flatten (ls : List (List Char))
    (h : ∀ l ∈ ls, ∃ m, l = m ++ ['\n'] ∧ '\n' ∉ m) :
    pyFileLines ls.flatten = ls := by
  induction ls with
  | nil => rfl
  | cons l t ih =>
    obtain ⟨m, hl, hm⟩ := h l (List.mem_cons_self l t)
    subst hl
    have e : (m ++ ['\n']) ++ t.flatten = m ++ '\n' :: t.flatten := by
      simp
    simp only [List.flatten_cons, pyFileLines, e]
    rw [pyFileLinesAux_line m t.flatten [] hm]
    simp only [List.reverse_nil, List.nil_append, List.cons.injEq, true_and]
    exact ih (fun l hl => h l (List.mem_cons_of_mem _ hl))

/-- C1 counterexample: a non-description line with leading whitespace is
not passed through verbatim; _process_module_prop strips it. -/
theorem c1_module_prop_counterexample :
    processModuleProp " name=foo\ndescription=old\n" "3.12.1" "arm64"
        ≠ " name=foo\ndescription=CPython 3.12.1 for ARM64" ∧
    processModuleProp " name=foo\ndescription=old\n" "3.12.1" "arm64"
        = "name=foo\ndescription=CPython 3.12.1 for ARM64" := by
  exact ⟨by decide, by decide⟩

/-- C1 (amended): for a descriptor made of newline-terminated lines, every
line starting with "description" is replaced by exactly
description=CPython {version} for {ARCH} (ARCH upper-cased), every other
line is passed through with its leading and trailing whitespace
(including the line terminator) stripped, the lines are joined with a
single newline, and no trailing newline is appended. -/
theorem c1_module_prop (ls : List (List Char)) (ver arch : String)
    (h : ∀ l ∈ ls, ∃ m, l = m ++ ['\n'] ∧ '\n' ∉ m) :
    processModuleProp ⟨ls.flatten⟩ ver arch =
      String.intercalate "\n" (ls.map (fun l =>
        if listStarts "description".data l then
          "description=CPython " ++ ver ++ " for " ++ pyUpper arch
        else (⟨pyStripList l⟩ : String))) := by
  unfold processModuleProp
  rw [show (⟨ls.flatten⟩ : String).data = ls.flatten from rfl,
    pyFileLines_flatten ls h]
  have hf : (fun l => (⟨procLine ver arch l⟩ : String)) =
      (fun l => if listStarts "description".data l then
          "description=CPython " ++ ver ++ " for " ++ pyUpper arch
        else (⟨pyStripList l⟩ : String)) := by
    funext l
    unfold procLine
    split
    · rfl
    · rfl
  rw [hf]

/-- Witness for C1 at the spec's example descriptor. -/
theorem c1_module_prop_witness :
    processModuleProp "name=foo\nversion=1.0\ndescription=old\n" "3.12.1" "arm64"
      = "name=foo\nversion=1.0\ndescription=CPython 3.12.1 for ARM64" := by
  have hj : ∀ l ∈ (["name=foo\n".data, "version=1.0\n".data,
      "description=old\n".data] : List (List Char)),
      ∃ m, l = m ++ ['\n'] ∧ '\n' ∉ m := by
    intro l hl
    simp only [List.mem_cons, List.not_mem_nil, or_false] at hl
    rcases hl with rfl | rfl | rfl
    · exact ⟨"name=foo".data, by decide, by decide⟩
    · exact ⟨"version=1.0".data, by decide, by decide⟩
    · exact ⟨"description=old".data, by decide, by decide⟩
  have h := c1_module_prop
    ["name=foo\n".data, "version=1.0\n".data, "description=old\n".data]
    "3.12.1" "arm64" hj
  have e : ("name=foo\nversion=1.0\ndescription=old\n" : String) =
      ⟨(["name=foo\n".data, "version=1.0\n".data,
        "description=old\n".data] : List (List Char)).flatten⟩ := by decide
  rw [e, h]
  decide

/-! ## C5: source-cache reuse -/

theorem find?_append_first {α : Type} (p : α → Bool) (pre post : List α) (e : α)
    (hpre : ∀ x ∈ pre, p x = false) (he : p e = true) :
    (pre ++ e :: post).find? p = some e := by
  induction pre with
  | nil => simpa [List.find?_cons] using List.find?_cons_of_pos post he
  | cons x xs ih =>
    have hx := hpre x (List.mem_cons_self x xs)
    rw [List.cons_append, List.find?_cons_of_neg _ (by simp [hx])]
    exact ih (fun y hy => hpre y (List.mem_cons_of_mem _ hy))

/-- C5: when the build directory has an immediate child directory whose
name contains the resolved version string, get_cpython performs no
download and no extraction (empty effect list) and returns the first
such directory in iteration order together with the version string. -/
theorem c5_cached_sources (url : String) (pre post : List DirEntry)
    (e : DirEntry)
    (hpre : ∀ x ∈ pre,
      (x.isDir && listContains (pyVersionOf (pathName url)).data x.name.data)
        = false)
    (he : (e.isDir && listContains (pyVersionOf (pathName url)).data e.name.data)
        = true) :
    get_cpython url (pre ++ e :: post) =
      (SourceResult.cached e.name (pyVersionOf (pathName url)), []) := by
  have hfind := find?_append_first
    (fun x => x.isDir && listContains (pyVersionOf (pathName url)).data x.name.data)
    pre post e hpre he
  simp only [get_cpython, findCachedDir, hfind]

/-- Witness for C5: a build directory with a stale partial download and a
matching extracted tree reuses the tree with no fetch effects. -/
theorem c5_cached_sources_witness :
    get_cpython "https://www.python.org/ftp/python/3.12.1/Python-3.12.1.tgz"
      [⟨"Python-3.12.1.tgz.part", false⟩, ⟨"cpython-3.12.1", true⟩] =
      (SourceResult.cached "cpython-3.12.1" "3.12.1", []) := by
  have h := c5_cached_sources
    "https://www.python.org/ftp/python/3.12.1/Python-3.12.1.tgz"
    [⟨"Python-3.12.1.tgz.part", false⟩] []
    ⟨"cpython-3.12.1", true⟩ (by decide) (by decide)
  exact h.trans (by decide)

/-! ## C8: per-host build driver -/

/-- C8: per host in configured order, an existing cross-build/<host>
directory yields no configure-host, make-host or package command for
that host with processing simply continuing (the command list equals the
one over the remaining hosts), while a host without one gets
configure-host then make-host and then the package step exactly when
packaging is enabled. -/
theorem c8_build_driver (hosts : List String) (package buildExists : Bool)
    (hostExists : String → Bool) :
    build_cpython hosts package buildExists hostExists =
      (if buildExists then [] else [Cmd.configureBuild, Cmd.makeBuild]) ++
        ((hosts.filter (fun h => !hostExists h)).map (fun h =>
          [Cmd.configureHost h, Cmd.makeHost h] ++
            (if package then [Cmd.packageHost h, Cmd.moveDist h] else []))).flatten ∧
    (∀ h, hostExists h = true →
      ∀ c ∈ build_cpython hosts package buildExists hostExists,
        c ≠ Cmd.configureHost h ∧ c ≠ Cmd.makeHost h ∧
        c ≠ Cmd.packageHost h ∧ c ≠ Cmd.moveDist h) := by
  have hmain : ∀ hs : List String,
      (hs.map (hostCmds package hostExists)).flatten =
        ((hs.filter (fun h => !hostExists h)).map (fun h =>
          [Cmd.configureHost h, Cmd.makeHost h] ++
            (if package then [Cmd.packageHost h, Cmd.moveDist h] else []))).flatten := by
    intro hs
    induction hs with
    | nil => rfl
    | cons h t ih =>
      by_cases he : hostExists h <;> simp [hostCmds, he, ih]
  constructor
  · unfold build_cpython
    rw [hmain hosts]
  · intro h hh c hc
    unfold build_cpython at hc
    rw [hmain hosts] at hc
    rcases List.mem_append.mp hc with hpre | hblock
    · have : c = Cmd.configureBuild ∨ c = Cmd.makeBuild := by
        split at hpre
        · simp at hpre
        · simpa using hpre
      rcases this with rfl | rfl <;> exact ⟨by simp, by simp, by simp, by simp⟩
    · obtain ⟨l, hl, hcl⟩ := List.mem_flatten.mp hblock
      obtain ⟨h', hh', hl'⟩ := List.mem_map.mp hl
      have hne : h' ≠ h := by
        intro heq
        rw [List.mem_filter] at hh'
        rw [heq, hh] at hh'
        simp at hh'
      subst hl'
      rcases List.mem_append.mp hcl with hc1 | hc2
      · simp only [List.mem_cons, List.not_mem_nil, or_false] at hc1
        rcases hc1 with rfl | rfl <;>
          exact ⟨by simp [hne], by simp [hne], by simp, by simp⟩
      · have : c = Cmd.packageHost h' ∨ c = Cmd.moveDist h' := by
          split at hc2
          · simpa using hc2
          · simp at hc2
        rcases this with rfl | rfl <;>
          exact ⟨by simp, by simp, by simp [hne], by simp [hne]⟩

/-- Witness for C8: with one already-built host and one fresh host and
packaging enabled, only the fresh host's commands are issued. -/
theorem c8_build_driver_witness :
    build_cpython ["armv7a-linux-androideabi", "aarch64-linux-android"]
      true false (fun h => h == "armv7a-linux-androideabi") =
      [Cmd.configureBuild, Cmd.makeBuild,
       Cmd.configureHost "aarch64-linux-android",
       Cmd.makeHost "aarch64-linux-android",
       Cmd.packageHost "aarch64-linux-android",
       Cmd.moveDist "aarch64-linux-android"] := by
  rw [(c8_build_driver ["armv7a-linux-androideabi", "aarch64-linux-android"]
    true false (fun h => h == "armv7a-linux-androideabi")).1]
  decide

/-! ## C6: configuration loading -/

/-- C6: a parse failure or a missing python/module table is reported as a
configuration error (the former carrying the original parse message),
and a successful load draws every field of both records from the parsed
tables: nothing partial or defaulted is ever constructed. -/
theorem c6_load_config :
    (∀ e : String, ∃ msg, load_config (.error e) = .error (.valueError msg) ∧
      listContains e.data msg.data = true) ∧
    (∀ doc : TomlDoc,
      (doc.lookup "python" = none ∨ doc.lookup "module" = none) →
      ∃ msg, load_config (.ok doc) = .error (.valueError msg)) ∧
    (∀ parsed pc mc, load_config parsed = .ok (pc, mc) →
      ∃ doc pt mt, parsed = .ok doc ∧ doc.lookup "python" = some pt ∧
        doc.lookup "module" = some mt ∧ mkPythonConfig pt = some pc ∧
        mkModuleConfig mt = some mc) ∧
    (∀ pt pc, mkPythonConfig pt = some pc →
      pt.lookup "sources_url" = some pc.sources_url ∧
      pt.lookup "apply_patches" = some pc.apply_patches ∧
      pt.lookup "hosts" = some pc.hosts ∧
      pt.lookup "configure_args" = some pc.configure_args ∧
      pt.lookup "configure_env" = some pc.configure_env ∧
      pt.lookup "package" = some pc.package) ∧
    (∀ mt mc, mkModuleConfig mt = some mc →
      mt.lookup "include_files" = some mc.include_files ∧
      mt.lookup "debloat" = some mc.debloat ∧
      mt.lookup "debloat_patterns" = some mc.debloat_patterns ∧
      mt.lookup "replace_shebangs" = some mc.replace_shebangs ∧
      mt.lookup "shebang_mapping" = some mc.shebang_mapping ∧
      mt.lookup "strip" = some mc.strip ∧
      mt.lookup "strip_args" = some mc.strip_args) := by
  refine ⟨?_, ?_, ?_, ?_, ?_⟩
  · intro e
    refine ⟨"Failed to parse 'build.toml': " ++ e, rfl, ?_⟩
    rw [String.data_append]
    exact listContains_append_self e.data "Failed to parse 'build.toml': ".data
  · intro doc hd
    refine ⟨"Configuration file 'build.toml' must contain 'python' and 'module' sections", ?_⟩
    rcases hd with h | h <;> simp [load_config, h]
  · intro parsed pc mc h
    cases parsed with
    | error e => simp [load_config] at h
    | ok doc =>
      refine ⟨doc, ?_⟩
      simp only [load_config] at h
      split at h
      · simp at h
      · rename_i hcond
        rw [Bool.or_eq_true, not_or] at hcond
        obtain ⟨hp1, hm1⟩ := hcond
        rcases hp : doc.lookup "python" with _ | pt
        · rw [hp] at hp1; simp at hp1
        rcases hm : doc.lookup "module" with _ | mt
        · rw [hm] at hm1; simp at hm1
        rw [hp, hm] at h
        simp only [Option.getD_some] at h
        rcases hpc : mkPythonConfig pt with _ | pc'
        · rw [hpc] at h; rcases hmc : mkModuleConfig mt with _ | mc' <;>
            rw [hmc] at h <;> simp at h
        rcases hmc : mkModuleConfig mt with _ | mc'
        · rw [hpc, hmc] at h; simp at h
        rw [hpc, hmc] at h
        simp only [Except.ok.injEq, Prod.mk.injEq] at h
        refine ⟨pt, mt, rfl, rfl, rfl, ?_, ?_⟩
        · rw [hpc, h.1]
        · rw [hmc, h.2]
  · intro pt pc h
    unfold mkPythonConfig at h
    split at h
    · simp only [Option.bind_eq_bind, Option.bind_eq_some,
        Option.some.injEq] at h
      obtain ⟨u, hu, ap, hap, hs2, hhs, ca, hca, ce, hce, pk, hpk, hfin⟩ := h
      subst hfin
      exact ⟨hu, hap, hhs, hca, hce, hpk⟩
    · simp at h
  · intro mt mc h
    unfold mkModuleConfig at h
    split at h
    · simp only [Option.bind_eq_bind, Option.bind_eq_some,
        Option.some.injEq] at h
      obtain ⟨inc, hinc, db, hdb, dp, hdp, rs, hrs, sm, hsm, st, hst, sa,
        hsa, hfin⟩ := h
      subst hfin
      exact ⟨hinc, hdb, hdp, hrs, hsm, hst, hsa⟩
    · simp at h

/-- Witness for C6 at a document with a python table but no module
table. -/
theorem c6_load_config_witness :
    ∃ msg, load_config (.ok [("python", [])]) =
      .error (.valueError msg) :=
  c6_load_config.2.1 [("python", [])] (Or.inr (by decide))

/-! ## C10: getprops and the module name/version unpacking -/

theorem getprops_eq_filter_map (lines : List (List Char))
    (keys : List (List Char)) :
    getprops lines keys = (lines.filter (lineMatches keys)).map lineValue := by
  induction lines with
  | nil => rfl
  | cons l t ih =>
    simp only [getprops] at ih ⊢
    simp at ih
    by_cases h1 : '=' ∈ l
    · have b1 : l.contains '=' = true := List.elem_iff.mpr h1
      by_cases h2 : pyStripList (splitOnceChar '=' l).1 ∈ keys
      · have b2 : keys.contains (pyStripList (splitOnceChar '=' l).1) = true :=
          List.elem_iff.mpr h2
        simp [List.filterMap_cons, List.filter_cons, lineMatches, lineValue,
          b1, b2, h1, h2, ih]
      · have b2 : keys.contains (pyStripList (splitOnceChar '=' l).1) = false := by
          rw [← Bool.not_eq_true]
          intro hb
          exact h2 (List.elem_iff.mp hb)
        simp [List.filterMap_cons, List.filter_cons, lineMatches, lineValue,
          b1, b2, h1, h2, ih]
    · have b1 : l.contains '=' = false := by
        rw [← Bool.not_eq_true]
        intro hb
        exact h1 (List.elem_iff.mp hb)
      simp [List.filterMap_cons, List.filter_cons, lineMatches, lineValue,
        b1, h1, ih]

/-- C10: getprops appends the stripped value of every line whose key
matches, one value per matching line in file order (duplicates
included) and independently of the order of the requested keys; the
constructor's two-element unpacking therefore fails exactly when the
number of matching lines is not two, and otherwise assigns the first
matching line's value to the module name and the second's to the module
version, regardless of which key each line carried. -/
theorem c10_getprops :
    (∀ lines keys,
      getprops lines keys = (lines.filter (lineMatches keys)).map lineValue) ∧
    (∀ lines keys keys', (∀ k, keys.contains k = keys'.contains k) →
      getprops lines keys = getprops lines keys') ∧
    (∀ lines, initModuleProps lines = .error () ↔
      (getprops lines ["name".data, "version".data]).length ≠ 2) ∧
    (∀ lines n v, getprops lines ["name".data, "version".data] = [n, v] →
      initModuleProps lines = .ok (n, v)) := by
  refine ⟨getprops_eq_filter_map, ?_, ?_, ?_⟩
  · intro lines keys keys' hk
    rw [getprops_eq_filter_map, getprops_eq_filter_map]
    have : lines.filter (lineMatches keys) = lines.filter (lineMatches keys') := by
      apply List.filter_congr
      intro l _
      unfold lineMatches
      rw [hk]
    rw [this]
  · intro lines
    rcases hg : getprops lines ["name".data, "version".data]
      with _ | ⟨a, _ | ⟨b, _ | ⟨c, t⟩⟩⟩ <;>
      simp [initModuleProps, hg]
  · intro lines n v h
    simp [initModuleProps, h]

/-- Witness for C10: a descriptor with the version line first binds the
module name to the version value (values follow line order, not key
order). -/
theorem c10_getprops_witness :
    initModuleProps (pyFileLines "version=1.0\nname=foo\n".data) =
      .ok ("1.0".data, "foo".data) :=
  c10_getprops.2.2.2 _ "1.0".data "foo".data (by decide)

/-! ## C4: version resolution -/

theorem takeWhile_append_all {α : Type} (p : α → Bool) (a r : List α)
    (ha : ∀ x ∈ a, p x = true) :
    (a ++ r).takeWhile p = a ++ r.takeWhile p := by
  induction a with
  | nil => simp
  | cons x xs ih =>
    have hx := ha x (List.mem_cons_self x xs)
    simp [List.takeWhile_cons, hx,
      ih (fun y hy => ha y (List.mem_cons_of_mem _ hy))]

theorem drop_takeWhile_len {α : Type} (p : α → Bool) (l : List α) :
    l.drop (l.takeWhile p).length = l.dropWhile p := by
  induction l with
  | nil => rfl
  | cons c cs ih =>
    by_cases hc : p c = true
    · simp [List.takeWhile_cons, List.dropWhile_cons, hc, ih]
    · simp [List.takeWhile_cons, List.dropWhile_cons, hc]

theorem takeWhile_self_append {α : Type} (p : α → Bool) (l : List α) :
    l.takeWhile p ++ l.drop (l.takeWhile p).length = l := by
  rw [drop_takeWhile_len, List.takeWhile_append_dropWhile]

theorem dropWhile_head_false {α : Type} (p : α → Bool) (l : List α) :
    l.dropWhile p = [] ∨
      ∃ x t, l.dropWhile p = x :: t ∧ p x = false := by
  induction l with
  | nil => exact Or.inl rfl
  | cons c cs ih =>
    by_cases hc : p c = true
    · simpa [List.dropWhile_cons, hc] using ih
    · exact Or.inr ⟨c, cs, by simp [List.dropWhile_cons, hc],
        Bool.not_eq_true _ ▸ hc⟩

theorem nonempty_of_not_isEmpty {α : Type} {l : List α}
    (h : ¬ l.isEmpty = true) : l ≠ [] := by
  intro he
  exact h (by simp [he])

/-- The greedy matcher succeeds on any position where a version pattern
starts, consuming the maximal third digit run. -/
theorem matchVer_of_decomp (a b c rest : List Char)
    (ha : a ≠ []) (hb : b ≠ []) (hc : c ≠ [])
    (hda : ∀ x ∈ a, x.isDigit = true) (hdb : ∀ x ∈ b, x.isDigit = true)
    (hdc : ∀ x ∈ c, x.isDigit = true) :
    matchVer (a ++ '.' :: (b ++ '.' :: (c ++ rest))) =
      some (a ++ '.' :: (b ++ '.' :: (c ++ rest.takeWhile Char.isDigit))) := by
  have hdot : ('.' : Char).isDigit = false := by decide
  have ht1 : (a ++ '.' :: (b ++ '.' :: (c ++ rest))).takeWhile Char.isDigit
      = a := by
    rw [takeWhile_append_all Char.isDigit a _ hda]
    simp [List.takeWhile_cons, hdot]
  have he1 : a.isEmpty = false := by
    cases a with
    | nil => exact absurd rfl ha
    | cons x xs => rfl
  have hdropa : (a ++ '.' :: (b ++ '.' :: (c ++ rest))).drop a.length
      = '.' :: (b ++ '.' :: (c ++ rest)) := List.drop_left a _
  have ht2 : (b ++ '.' :: (c ++ rest)).takeWhile Char.isDigit = b := by
    rw [takeWhile_append_all Char.isDigit b _ hdb]
    simp [List.takeWhile_cons, hdot]
  have he2 : b.isEmpty = false := by
    cases b with
    | nil => exact absurd rfl hb
    | cons x xs => rfl
  have hdropb : (b ++ '.' :: (c ++ rest)).drop b.length
      = '.' :: (c ++ rest) := List.drop_left b _
  have ht3 : (c ++ rest).takeWhile Char.isDigit
      = c ++ rest.takeWhile Char.isDigit :=
    takeWhile_append_all Char.isDigit c rest hdc
  have he3 : (c ++ rest.takeWhile Char.isDigit).isEmpty = false := by
    cases c with
    | nil => exact absurd rfl hc
    | cons x xs => rfl
  simp only [matchVer, ht1, he1, Bool.false_eq_true, if_false, hdropa,
    if_pos rfl, ht2, he2, hdropb, ht3, he3]
  simp

/-- Soundness of the greedy matcher: a match is a version pattern and a
prefix of the input. -/
theorem matchVer_sound (l v : List Char) (h : matchVer l = some v) :
    VerStr v ∧ ∃ rest, l = v ++ rest := by
  simp only [matchVer] at h
  split at h
  · simp at h
  · rename_i h1
    split at h
    · simp at h
    · rename_i c1 r2 hr1
      split at h
      · rename_i hc1
        split at h
        · simp at h
        · rename_i h2
          split at h
          · simp at h
          · rename_i c2 r3 hr2
            split at h
            · rename_i hc2
              split at h
              · simp at h
              · rename_i h3
                injection h with hv
                subst hc1
                subst hc2
                constructor
                · exact ⟨l.takeWhile Char.isDigit, r2.takeWhile Char.isDigit,
                    r3.takeWhile Char.isDigit, hv.symm,
                    nonempty_of_not_isEmpty h1, nonempty_of_not_isEmpty h2,
                    nonempty_of_not_isEmpty h3,
                    fun x hx => List.mem_takeWhile_imp hx,
                    fun x hx => List.mem_takeWhile_imp hx,
                    fun x hx => List.mem_takeWhile_imp hx⟩
                · refine ⟨r3.drop (r3.takeWhile Char.isDigit).length, ?_⟩
                  rw [← hv]
                  have e1 := takeWhile_self_append Char.isDigit l
                  have e2 := takeWhile_self_append Char.isDigit r2
                  have e3 := takeWhile_self_append Char.isDigit r3
                  rw [hr1] at e1
                  rw [hr2] at e2
                  calc l = l.takeWhile Char.isDigit ++ '.' :: r2 := e1.symm
                    _ = l.takeWhile Char.isDigit ++ '.' ::
                          (r2.takeWhile Char.isDigit ++ '.' :: r3) := by
                        conv_lhs => rw [← e2]
                    _ = l.takeWhile Char.isDigit ++ '.' ::
                          (r2.takeWhile Char.isDigit ++ '.' ::
                            (r3.takeWhile Char.isDigit ++
                              r3.drop (r3.takeWhile Char.isDigit).length)) := by
                        conv_rhs => rw [e3]
                    _ = (l.takeWhile Char.isDigit ++ '.' ::
                          (r2.takeWhile Char.isDigit ++ '.' ::
                            r3.takeWhile Char.isDigit)) ++
                            r3.drop (r3.takeWhile Char.isDigit).length := by
                        simp
            · simp at h
      · simp at h

/-- Completeness with maximality: wherever a version pattern starts, the
greedy matcher returns a version-pattern prefix at least as long. -/
theorem matchVer_at_of (l v b : List Char) (hv : VerStr v) (hl : l = v ++ b) :
    ∃ w rest, matchVer l = some w ∧ VerStr w ∧ l = w ++ rest ∧
      v.length ≤ w.length := by
  obtain ⟨x, y, z, hvd, hx, hy, hz, hdx, hdy, hdz⟩ := hv
  subst hvd
  subst hl
  have e : (x ++ '.' :: (y ++ '.' :: z)) ++ b =
      x ++ '.' :: (y ++ '.' :: (z ++ b)) := by simp
  rw [e, matchVer_of_decomp x y z b hx hy hz hdx hdy hdz]
  refine ⟨_, b.drop (b.takeWhile Char.isDigit).length, rfl, ?_, ?_, ?_⟩
  · refine ⟨x, y, z ++ b.takeWhile Char.isDigit, rfl, hx, hy, ?_, hdx, hdy, ?_⟩
    · cases z with
      | nil => exact absurd rfl hz
      | cons c cs => simp
    · intro w hw
      rcases List.mem_append.mp hw with hw | hw
      · exact hdz w hw
      · exact List.mem_takeWhile_imp hw
  · have eb := takeWhile_self_append Char.isDigit b
    calc x ++ '.' :: (y ++ '.' :: (z ++ b))
        = x ++ '.' :: (y ++ '.' :: (z ++ (b.takeWhile Char.isDigit ++
            b.drop (b.takeWhile Char.isDigit).length))) := by rw [eb]
      _ = (x ++ '.' :: (y ++ '.' :: (z ++ b.takeWhile Char.isDigit))) ++
            b.drop (b.takeWhile Char.isDigit).length := by simp
  · simp [List.length_append]

/-- A failing scan means no substring anywhere matches. -/
theorem findVer_none (l : List Char) (h : findVer l = none) :
    ¬ ∃ a v b, l = a ++ v ++ b ∧ VerStr v := by
  induction l with
  | nil =>
    rintro ⟨a, v, b, hl, hv⟩
    obtain ⟨x, y, z, hvd, -, -, -, -, -, -⟩ := hv
    have := congrArg List.length hl
    simp [hvd] at this
    omega
  | cons ch cs ih =>
    cases hm : matchVer (ch :: cs) with
    | some w => simp [findVer, hm] at h
    | none =>
      have h' : findVer cs = none := by
        simpa [findVer, hm] using h
      rintro ⟨a, v, b, hl, hv⟩
      cases a with
      | nil =>
        rw [List.nil_append] at hl
        obtain ⟨w, rest, hw, -, -, -⟩ := matchVer_at_of (ch :: cs) v b hv hl
        rw [hm] at hw
        cases hw
      | cons a0 a' =>
        rw [List.cons_append, List.cons_append] at hl
        injection hl with _ h2
        exact ih h' ⟨a', v, b, h2, hv⟩

/-- A successful scan returns a version pattern located at the leftmost
matching position, maximal among the matches at that position. -/
theorem findVer_first (l v : List Char) (h : findVer l = some v) :
    VerStr v ∧ ∃ a rest, l = a ++ v ++ rest ∧
      (∀ a' v' b', l = a' ++ v' ++ b' → VerStr v' →
        a.length ≤ a'.length ∧
          (a'.length = a.length → v'.length ≤ v.length)) := by
  induction l with
  | nil => simp [findVer] at h
  | cons ch cs ih =>
    cases hm : matchVer (ch :: cs) with
    | some w =>
      have hv : w = v := by simpa [findVer, hm] using h
      subst hv
      obtain ⟨hVS, rest, hrest⟩ := matchVer_sound (ch :: cs) w hm
      refine ⟨hVS, [], rest, by simpa using hrest, ?_⟩
      intro a' v' b' hl' hv'
      refine ⟨Nat.zero_le _, fun ha0 => ?_⟩
      have ha' : a' = [] := List.length_eq_zero.mp (by simpa using ha0)
      subst ha'
      rw [List.nil_append] at hl'
      obtain ⟨w2, rest2, hw2, -, -, hlen⟩ :=
        matchVer_at_of (ch :: cs) v' b' hv' hl'
      rw [hm] at hw2
      injection hw2 with hww
      rw [hww]
      exact hlen
    | none =>
      have h' : findVer cs = some v := by
        simpa [findVer, hm] using h
      obtain ⟨hVS, a, rest, hl, hmin⟩ := ih h'
      refine ⟨hVS, ch :: a, rest, by simp [hl], ?_⟩
      intro a' v' b' hl' hv'
      cases a' with
      | nil =>
        exfalso
        rw [List.nil_append] at hl'
        obtain ⟨w2, rest2, hw2, -, -, -⟩ :=
          matchVer_at_of (ch :: cs) v' b' hv' hl'
        rw [hm] at hw2
        cases hw2
      | cons a0 a'' =>
        rw [List.cons_append, List.cons_append] at hl'
        injection hl' with _ h2
        have hres := hmin a'' v' b' h2 hv'
        constructor
        · simpa using Nat.succ_le_succ hres.1
        · intro he
          apply hres.2
          simp at he
          omega

/-- C4: the resolved version string is the first (leftmost, and longest at
that position) substring of the archive filename matching
\d+\.\d+\.\d+, and is the string "unknown" exactly when the filename has
no such substring. -/
theorem c4_version_resolution (f : String) :
    ((¬ ∃ a v b : List Char, f.data = a ++ v ++ b ∧ VerStr v) →
      pyVersionOf f = "unknown") ∧
    (∀ a v b : List Char, f.data = a ++ v ++ b → VerStr v →
      VerStr (pyVersionOf f).data ∧
      ∃ a' b', f.data = a' ++ (pyVersionOf f).data ++ b' ∧
        a'.length ≤ a.length ∧
        (a'.length = a.length →
          v.length ≤ (pyVersionOf f).data.length)) := by
  constructor
  · intro hno
    cases hf : findVer f.data with
    | none => simp [pyVersionOf, hf]
    | some w =>
      exfalso
      obtain ⟨hVS, a, rest, hl, -⟩ := findVer_first f.data w hf
      exact hno ⟨a, w, rest, hl, hVS⟩
  · intro a v b hl hv
    cases hf : findVer f.data with
    | none => exact absurd ⟨a, v, b, hl, hv⟩ (findVer_none f.data hf)
    | some w =>
      obtain ⟨hVS, a', rest, hl', hmin⟩ := findVer_first f.data w hf
      have hd : (pyVersionOf f).data = w := by simp [pyVersionOf, hf]
      rw [hd]
      exact ⟨hVS, a', rest, hl', (hmin a v b hl hv).1,
        fun he => (hmin a v b hl hv).2 he.symm⟩

/-- Witness for C4 at the standard CPython archive filename. -/
theorem c4_version_resolution_witness :
    VerStr (pyVersionOf "Python-3.12.1.tgz").data ∧
    ∃ a' b', ("Python-3.12.1.tgz" : String).data =
      a' ++ (pyVersionOf "Python-3.12.1.tgz").data ++ b' ∧
      a'.length ≤ "Python-".data.length ∧
      (a'.length = "Python-".data.length →
        "3.12.1".data.length ≤ (pyVersionOf "Python-3.12.1.tgz").data.length) :=
  (c4_version_resolution "Python-3.12.1.tgz").2 "Python-".data "3.12.1".data
    ".tgz".data (by decide)
    ⟨"3".data, "12".data, "1".data, by decide, by decide, by decide,
      by decide, by decide, by decide, by decide⟩

/-! ## C7: shebang rewriting -/

/-- C7: a decodable, non-binary file whose content starts with a match of
the (spec-modelled) python shebang regex has, after the rewrite pass,
exactly the bytes of #!/system/bin/python3 as its first line; a file
classified as binary passes through the whole pass byte-for-byte
unchanged. -/
theorem c7_shebang_rewrite (shellM : List Char → Option Nat) :
    (∀ file content, asciiDecode file = some content →
      is_binary (file.take 1024) = false →
      (pythonShebangMatch content).isSome = true →
      firstLineBytes (processBinFile shellM file) =
        asciiEncode "#!/system/bin/python3".data) ∧
    (∀ file, is_binary (file.take 1024) = true →
      processBinFile shellM file = file) := by
  constructor
  · intro file content hdec hbin hm
    obtain ⟨n, hn⟩ := Option.isSome_iff_exists.mp hm
    have hn0 := hn
    simp only [pythonShebangMatch] at hn
    split at hn
    · rename_i hcond
      injection hn with hlen
      have hne : content ≠ [] := by
        intro he
        subst he
        simp [listStarts] at hcond
      have hrs : replace_shebang pythonShebangMatch
          "#!/system/bin/python3".data file =
          (true, asciiEncode (subFirst pythonShebangMatch
            "#!/system/bin/python3".data content)) := by
        simp [replace_shebang, hbin, hdec, hn0]
      have hsub : subFirst pythonShebangMatch
          "#!/system/bin/python3".data content =
          "#!/system/bin/python3".data ++ content.drop n := by
        obtain ⟨c0, cs, rfl⟩ : ∃ c0 cs, content = c0 :: cs := by
          cases content with
          | nil => exact absurd rfl hne
          | cons a b => exact ⟨a, b, rfl⟩
        simp [subFirst, hn0]
      have hpb : processBinFile shellM file =
          asciiEncode ("#!/system/bin/python3".data ++ content.drop n) := by
        simp [processBinFile, hrs, hsub]
      rw [hpb]
      unfold firstLineBytes asciiEncode
      rw [List.map_append]
      rw [takeWhile_append_all _ _ _ (by decide)]
      rw [← hlen, drop_takeWhile_len]
      rcases dropWhile_head_false (fun c => decide (c ≠ '\n')) content
        with he | ⟨x, t, he, hx⟩
      · rw [he]
        simp
      · rw [he]
        have hx' : x = '\n' := by simpa using hx
        subst hx'
        have h10 : Char.toNat '\n' = 10 := rfl
        simp [List.takeWhile_cons, h10]
    · simp at hn
  · intro file hb
    simp [processBinFile, replace_shebang, hb]

/-- Witness for C7 at a python script and at a binary file. -/
theorem c7_shebang_rewrite_witness :
    firstLineBytes (processBinFile (fun _ => none)
      (asciiEncode "#!/usr/bin/env python3\nbody\n".data)) =
      asciiEncode "#!/system/bin/python3".data :=
  (c7_shebang_rewrite (fun _ => none)).1
    (asciiEncode "#!/usr/bin/env python3\nbody\n".data)
    "#!/usr/bin/env python3\nbody\n".data
    (by decide) (by decide) (by decide)

end Py2Droid
